import Mathlib

/-!
Verification development for the text-buffer engine of a terminal text editor
written in Rust.  The engine consists of a piece table (`src/core/piece_table.rs`),
two batching buffers (`src/temporary_buffer_add.rs`, `src/temporary_buffer_deletion.rs`)
and a coordinating `Editor` (`src/editor.rs`).  Strings are modelled as `List Char`
(the source operates on byte offsets; all inputs considered here are ASCII, where
byte and character indices coincide).  `usize` values are modelled as `Nat`;
where a subtraction can underflow (which panics in debug builds), the model makes
the failure explicit.  Each Rust method that mutates `&mut self` and returns
`Result` is modelled as a pure function returning the result value together with
the post-state; every early `return Err(..)` in the source happens before any
mutation, and the model mirrors that by returning the unchanged input state in
those branches.
-/

namespace TextEditor

/-- Rust enum `BufferType` from `src/core/piece_table.rs`: which of the two owned
buffers a piece refers to. -/
inductive BufferType where
  | Original
  | Added
deriving DecidableEq, Repr

/-- Rust struct `Piece`: a contiguous span `[start, start+length)` of one of the
two buffers. -/
structure Piece where
  buffer_type : BufferType
  start : Nat
  length : Nat
deriving DecidableEq, Repr

/-- Rust struct `PieceTable`: original buffer (fixed), add buffer (append-only),
and the ordered piece list describing the logical document. -/
structure PieceTable where
  original_buffer : List Char
  add_buffer : List Char
  pieces : List Piece
deriving DecidableEq, Repr

/-- Slice `buffer[start .. start+length]` named by a piece
(`PieceTable::get_text_from_buffer`). -/
def Piece.textFrom (buffer : List Char) (p : Piece) : List Char :=
  (buffer.drop p.start).take p.length

/-- Text contributed by one piece: the slice of `original_buffer` or `add_buffer`
selected by its `buffer_type` (the match inside `PieceTable::get_text`). -/
def PieceTable.pieceText (pt : PieceTable) (p : Piece) : List Char :=
  match p.buffer_type with
  | .Original => p.textFrom pt.original_buffer
  | .Added => p.textFrom pt.add_buffer

/-- Rust `PieceTable::get_text`: concatenate the pieces' texts in order. -/
def PieceTable.get_text (pt : PieceTable) : List Char :=
  (pt.pieces.map pt.pieceText).flatten

/-- Rust `PieceTable::total_length`: sum of the piece lengths. -/
def PieceTable.total_length (pt : PieceTable) : Nat :=
  (pt.pieces.map Piece.length).sum

/-- Rust `PieceTable::new`: the whole text as the sole `Original` piece. -/
def PieceTable.new (text : List Char) : PieceTable :=
  { original_buffer := text
    add_buffer := []
    pieces := [⟨.Original, 0, text.length⟩] }

/-- Piece-list transformation performed by `PieceTable::add_text` (lines 100-162
of `src/core/piece_table.rs`).  The source walks the list with an accumulated
`current_pos` and picks the first piece with `position <= current_pos + piece.length`;
the recursion below keeps `position` relative instead (subtracting each skipped
piece's length), which is the same comparison.  On the found piece it removes it
and re-inserts: the left remainder when `split_offset > 0`, the new piece, and the
right remainder when `split_offset < piece.length`.  When no piece qualifies
(`insert_idx == pieces.len()`) the new piece is appended at the end. -/
def insertPieces (pieces : List Piece) (newPiece : Piece) (position : Nat) : List Piece :=
  match pieces with
  | [] => [newPiece]
  | p :: rest =>
    if position ≤ p.length then
      (if 0 < position then [⟨p.buffer_type, p.start, position⟩] else [])
        ++ [newPiece]
        ++ (if position < p.length then [⟨p.buffer_type, p.start + position, p.length - position⟩] else [])
        ++ rest
    else p :: insertPieces rest newPiece (position - p.length)

/-- Rust `PieceTable::add_text`.  Returns the `Result` value together with the
post-state; the two error/no-op returns happen before any mutation, so they pair
with the unchanged table.  The formatted error message of the source is replaced
by a fixed string (its numeric interpolation is irrelevant here). -/
def PieceTable.add_text (pt : PieceTable) (text : List Char) (position : Nat) :
    Except String Unit × PieceTable :=
  if text = [] then (.ok (), pt)
  else if position > pt.total_length then
    (.error "Position is beyond text length", pt)
  else
    let newPiece : Piece := ⟨.Added, pt.add_buffer.length, text.length⟩
    let pt1 : PieceTable := { pt with add_buffer := pt.add_buffer ++ text }
    if position = 0 ∧ pt1.pieces = [] then
      (.ok (), { pt1 with pieces := [newPiece] })
    else
      (.ok (), { pt1 with pieces := insertPieces pt1.pieces newPiece position })

/-- Scan of `PieceTable::delete_text` from the piece containing the deletion start
(inclusive) onward, looking for the piece containing the deletion end: the first
piece with `end > current_pos && end <= piece_end` (here `e` is relative, so
`0 < e ∧ e ≤ p.length`).  On the found piece the part after the deletion is kept
when `end_offset < piece.length`, followed by all later pieces; earlier pieces of
the scanned segment are dropped.  `none` corresponds to the loop ending without
setting `end_piece_idx`. -/
def deleteEnd (pieces : List Piece) (e : Nat) : Option (List Piece) :=
  match pieces with
  | [] => none
  | p :: rest =>
    if 0 < e ∧ e ≤ p.length then
      some ((if e < p.length then [⟨p.buffer_type, p.start + e, p.length - e⟩] else []) ++ rest)
    else deleteEnd rest (e - p.length)

/-- Scan of `PieceTable::delete_text` for the piece containing the deletion start:
the first piece with `start >= current_pos && start < piece_end` (relative:
`s < p.length`).  Pieces before it are kept unchanged; its prefix survives when
`start_offset > 0`.  `none` models the `ok_or("Could not find start piece")`
failure.  When the end scan finds nothing, the source falls back to
`end_idx = pieces.len() - 1` with `end_offset = 0`, which keeps the whole last
piece (if non-empty) and nothing after it. -/
def deleteFrom (pieces : List Piece) (s e : Nat) : Option (List Piece) :=
  match pieces with
  | [] => none
  | p :: rest =>
    if s < p.length then
      let tail :=
        match deleteEnd (p :: rest) e with
        | some t => t
        | none =>
          let lastP := (p :: rest).getLast (List.cons_ne_nil p rest)
          if 0 < lastP.length then [lastP] else []
      some ((if 0 < s then [⟨p.buffer_type, p.start, s⟩] else []) ++ tail)
    else (deleteFrom rest (s - p.length) (e - p.length)).map (p :: ·)

/-- Rust `PieceTable::delete_text` (half-open range).  All error returns and the
`start == end` no-op happen before any mutation; only the final
`self.pieces = new_pieces` mutates. -/
def PieceTable.delete_text (pt : PieceTable) (s e : Nat) :
    Except String Unit × PieceTable :=
  if s > pt.total_length then (.error "Start index is beyond text length", pt)
  else if e > pt.total_length then (.error "End index is beyond text length", pt)
  else if s > e then (.error "Start index cannot be greater than end index", pt)
  else if s = e then (.ok (), pt)
  else
    match deleteFrom pt.pieces s e with
    | none => (.error "Could not find start piece", pt)
    | some newPieces => (.ok (), { pt with pieces := newPieces })

/-- Well-formedness of one piece with respect to the table's buffers:
`piece.start + piece.length <= len(source buffer)`. -/
def Piece.wf (pt : PieceTable) (p : Piece) : Prop :=
  match p.buffer_type with
  | .Original => p.start + p.length ≤ pt.original_buffer.length
  | .Added => p.start + p.length ≤ pt.add_buffer.length

/-- Well-formedness of a piece table: every piece stays inside its buffer. -/
def PieceTable.wf (pt : PieceTable) : Prop :=
  ∀ p ∈ pt.pieces, p.wf pt

/-- Piece tables reachable from `PieceTable::new` by successful `add_text` and
`delete_text` calls. -/
inductive Reachable : PieceTable → Prop where
  | base (text : List Char) : Reachable (PieceTable.new text)
  | add (pt : PieceTable) (text : List Char) (position : Nat) :
      Reachable pt → (pt.add_text text position).1 = .ok () →
      Reachable (pt.add_text text position).2
  | del (pt : PieceTable) (s e : Nat) :
      Reachable pt → (pt.delete_text s e).1 = .ok () →
      Reachable (pt.delete_text s e).2

/-- Modelled from the spec: the enum `EnumAddResult` (its declaration file
`src/enums/enum_add_result.rs` is not in the sources; the spec and every call
site fix its three variants `{Added | MustPersist | NoChange}`). -/
inductive EnumAddResult where
  | Added
  | MustPersist
  | NoChange
deriving DecidableEq, Repr

/-- Subset of crossterm's `KeyCode` the buffer engine inspects: `Backspace`,
`Delete`, and a stand-in for every other key. -/
inductive KeyCode where
  | backspace
  | delete
  | other
deriving DecidableEq, Repr

/-- Rust struct `TemporaryBufferAddText` from `src/temporary_buffer_add.rs`. -/
structure TemporaryBufferAddText where
  buffer : List Char
  max_length : Nat
  position : Nat
deriving DecidableEq, Repr

/-- Rust `TemporaryBufferAddText::new`. -/
def TemporaryBufferAddText.new (max_length cursor_position : Nat) : TemporaryBufferAddText :=
  { buffer := [], max_length := max_length, position := cursor_position }

/-- Rust `TemporaryBufferAddText::add_char`: fails when already full, appends,
and signals `MustPersist` when the post-append length reaches `max_length`. -/
def TemporaryBufferAddText.add_char (b : TemporaryBufferAddText) (c : Char) :
    Except Unit EnumAddResult × TemporaryBufferAddText :=
  if b.buffer.length ≥ b.max_length then (.error (), b)
  else
    let b' := { b with buffer := b.buffer ++ [c] }
    if b'.buffer.length = b'.max_length then (.ok .MustPersist, b')
    else (.ok .Added, b')

/-- Rust `TemporaryBufferAddText::update_position`. -/
def TemporaryBufferAddText.update_position (b : TemporaryBufferAddText) (new_position : Nat) :
    TemporaryBufferAddText :=
  { b with position := new_position }

/-- Rust `TemporaryBufferAddText::delete_char`: pops the last buffered character,
but only when `position > 0` (the guard tests the anchor position, not the
buffer). -/
def TemporaryBufferAddText.delete_char (b : TemporaryBufferAddText) : TemporaryBufferAddText :=
  if b.position > 0 then { b with buffer := b.buffer.dropLast } else b

/-- Rust `TemporaryBufferAddText::clear`. -/
def TemporaryBufferAddText.clear (b : TemporaryBufferAddText) (cursor_position : Nat) :
    TemporaryBufferAddText :=
  { b with buffer := [], position := cursor_position }

/-- Rust `TemporaryBufferAddText::is_cursor_on_buffer`:
`position <= cursor_position < position + buffer.len()`. -/
def TemporaryBufferAddText.is_cursor_on_buffer (b : TemporaryBufferAddText)
    (cursor_position : Nat) : Bool :=
  cursor_position ≥ b.position && cursor_position < b.position + b.buffer.length

/-- Rust struct `TemporaryBufferDeleteText` from `src/temporary_buffer_deletion.rs`.
The source field `end` is named `endPos` here (`end` is a Lean keyword). -/
structure TemporaryBufferDeleteText where
  max_length : Nat
  start : Option Nat
  endPos : Option Nat
deriving DecidableEq, Repr

/-- Rust `TemporaryBufferDeleteText::new`. -/
def TemporaryBufferDeleteText.new (max_length : Nat) : TemporaryBufferDeleteText :=
  { max_length := max_length, start := none, endPos := none }

/-- Rust `TemporaryBufferDeleteText::add_char`.  `none` models a panic of the
debug build: `self.end.unwrap()` on a state where `start` is set but `end` is
not (never constructed by this program), the usize underflow of `start - 1`
when Backspace extends a range whose start is `0`, and the underflow of the
final `end - start` capacity check when the range is inverted.  In release
builds the subtractions would instead wrap, inverting the stored range. -/
def TemporaryBufferDeleteText.add_char (b : TemporaryBufferDeleteText)
    (position : Nat) (key : KeyCode) :
    Option (Except Unit EnumAddResult × TemporaryBufferDeleteText) :=
  match b.start with
  | none =>
    if key ≠ .backspace ∧ key ≠ .delete then some (.error (), b)
    else if key = .backspace then
      if position = 0 then some (.ok .NoChange, b)
      else some (.ok .Added, { b with start := some (position - 1), endPos := some position })
    else some (.ok .Added, { b with start := some position, endPos := some (position + 1) })
  | some s =>
    match b.endPos with
    | none => none
    | some e =>
      if key = .delete then
        let b' := { b with endPos := some (e + 1) }
        if e + 1 < s then none
        else some (if e + 1 - s = b.max_length then (.ok .MustPersist, b') else (.ok .Added, b'))
      else if key = .backspace then
        if s = 0 then none
        else
          let b' := { b with start := some (s - 1) }
          if e < s - 1 then none
          else some (if e - (s - 1) = b.max_length then (.ok .MustPersist, b') else (.ok .Added, b'))
      else some (.ok .NoChange, b)

/-- Rust `TemporaryBufferDeleteText::delete_word`.  The Backspace branch scans
`text[..position]` from the right for whitespace (the `i == 0` arm of the source
loop also yields index `0`, which the `find?` over `p.2.isWhitespace ∨ p.1 = 0`
reproduces); the commented-out extension arms of the source are no-ops that
return `Added`.  The Delete branch is translated exactly as written: it iterates
over `text[..position]` (the text BEFORE the position, despite its comment
"Find first space after the position") and sets `end` one past the first
whitespace found there, keeping `end = position` when the prefix has none; its
`i == text.len() - 1` arm also yields `i + 1`.  Slicing `text[..position]` with
`position > text.len()` would panic in Rust (Backspace branch only; `take`
saturates here) — no theorem below evaluates that case. -/
def TemporaryBufferDeleteText.delete_word (b : TemporaryBufferDeleteText)
    (text : List Char) (position : Nat) (key : KeyCode) :
    Except Unit EnumAddResult × TemporaryBufferDeleteText :=
  if key ≠ .backspace ∧ key ≠ .delete then (.error (), b)
  else if key = .backspace then
    if position = 0 then (.ok .NoChange, b)
    else
      match b.start with
      | none =>
        let s :=
          match ((text.take position).enum.reverse.find?
              (fun p => p.2.isWhitespace || p.1 == 0)) with
          | some (i, _) => i
          | none => position
        (.ok .Added, { b with start := some s, endPos := some position })
      | some _ => (.ok .Added, b)
  else
    if position ≥ text.length then (.ok .NoChange, b)
    else
      match b.endPos with
      | none =>
        let e :=
          match ((text.take position).enum.find?
              (fun p => p.2.isWhitespace || p.1 == text.length - 1)) with
          | some (i, _) => i + 1
          | none => position
        (.ok .Added, { b with start := some position, endPos := some e })
      | some _ => (.ok .Added, b)

/-- Rust `TemporaryBufferDeleteText::get_deletion_range`. -/
def TemporaryBufferDeleteText.get_deletion_range (b : TemporaryBufferDeleteText) :
    Option (Nat × Nat) :=
  match b.start, b.endPos with
  | some s, some e => some (s, e)
  | _, _ => none

/-- Rust `TemporaryBufferDeleteText::is_empty`. -/
def TemporaryBufferDeleteText.is_empty (b : TemporaryBufferDeleteText) : Bool :=
  b.start.isNone && b.endPos.isNone

/-- Rust `TemporaryBufferDeleteText::clear`. -/
def TemporaryBufferDeleteText.clear (b : TemporaryBufferDeleteText) :
    TemporaryBufferDeleteText :=
  { b with start := none, endPos := none }

/-- Rust struct `Position` from `src/position.rs`; `u16` coordinates are
modelled as `Nat` (the `u16` wrap of `move_right`/`move_down` at 65535 is not
exercised by anything below). -/
structure Position where
  x : Nat
  y : Nat
deriving DecidableEq, Repr

/-- Rust `Position::move_left` (saturating at 0). -/
def Position.move_left (p : Position) : Position :=
  if p.x > 0 then { p with x := p.x - 1 } else p

/-- Rust `Position::move_right`. -/
def Position.move_right (p : Position) : Position :=
  { p with x := p.x + 1 }

/-- Rust `Position::move_up` (saturating at 0). -/
def Position.move_up (p : Position) : Position :=
  if p.y > 0 then { p with y := p.y - 1 } else p

/-- Rust `Position::move_down`. -/
def Position.move_down (p : Position) : Position :=
  { p with y := p.y + 1 }

/-- Rust `Position::move_to_new_line`. -/
def Position.move_to_new_line (p : Position) : Position :=
  { x := 0, y := p.y + 1 }

/-- Rust struct `Editor` from `src/editor.rs`. -/
structure Editor where
  content : PieceTable
  text_position : Nat
  temporary_add_buffer : TemporaryBufferAddText
  temporary_delete_buffer : TemporaryBufferDeleteText
  cursor : Position
  right_most_column : Nat
  lines_map : List Nat
deriving DecidableEq, Repr

/-- Rust `Editor::get_text`: the piece-table text with the non-empty temporary
buffer's effect applied.  `String::insert_str` and `String::replace_range` are
modelled with `take`/`drop` splicing (they panic in Rust when the position or
range exceeds the content length; `take`/`drop` saturate instead — no theorem
below depends on such a state). -/
def Editor.get_text (e : Editor) : List Char :=
  let content := e.content.get_text
  if e.temporary_add_buffer.buffer ≠ [] then
    content.take e.temporary_add_buffer.position
      ++ e.temporary_add_buffer.buffer
      ++ content.drop e.temporary_add_buffer.position
  else if ¬ e.temporary_delete_buffer.is_empty then
    match e.temporary_delete_buffer.get_deletion_range with
    | some (s, e2) => content.take s ++ content.drop e2
    | none => content
  else content

/-- Rust `Editor::get_text_lines`: split the effective text on newline. -/
def Editor.get_text_lines (e : Editor) : List (List Char) :=
  e.get_text.splitOn '\n'

/-- Rust `Editor::update_lines_map`. -/
def Editor.update_lines_map (e : Editor) : Editor :=
  { e with lines_map := e.get_text_lines.map List.length }

/-- Rust `Editor::set_right_most_column`. -/
def Editor.set_right_most_column (e : Editor) (column : Nat) : Editor :=
  { e with right_most_column := column }

/-- Rust `Editor::new`: piece table over the initial text, both temporary
buffers empty, cursor placed at the end of the last line. -/
def Editor.new (text : List Char) (temporary_buffer_max_length : Nat) : Editor :=
  let text_position := if text ≠ [] then text.length else 0
  let e0 : Editor :=
    { content := PieceTable.new text
      temporary_add_buffer := TemporaryBufferAddText.new temporary_buffer_max_length text_position
      temporary_delete_buffer := TemporaryBufferDeleteText.new temporary_buffer_max_length
      text_position := text_position
      cursor := { x := 0, y := 0 }
      lines_map := []
      right_most_column := 0 }
  let e1 := e0.update_lines_map
  let last_line_length := e1.lines_map.getLast?.getD 0
  { e1 with cursor := { x := last_line_length, y := e1.lines_map.length - 1 } }

/-- Rust `Editor::persist_add_buffer`: flush the pending insertion into the
piece table when forced or past half capacity; the `add_text` result is
discarded (`let _ = ...`), and the buffer is cleared and re-anchored. -/
def Editor.persist_add_buffer (e : Editor) (force_save : Bool) : Editor :=
  if e.temporary_add_buffer.buffer = [] then e
  else if force_save
      || e.temporary_add_buffer.buffer.length > e.temporary_add_buffer.max_length / 2 then
    { e with
      content := (e.content.add_text e.temporary_add_buffer.buffer
        e.temporary_add_buffer.position).2
      temporary_add_buffer := e.temporary_add_buffer.clear e.text_position }
  else e

/-- Rust `Editor::persist_delete_buffer`: flush the pending deletion range into
the piece table (result discarded) and clear the buffer; does nothing when no
range is present. -/
def Editor.persist_delete_buffer (e : Editor) : Editor :=
  match e.temporary_delete_buffer.get_deletion_range with
  | some (s, e2) =>
    { e with
      content := (e.content.delete_text s e2).2
      temporary_delete_buffer := e.temporary_delete_buffer.clear }
  | none => e

/-- Rust `Editor::persist_changes`. -/
def Editor.persist_changes (e : Editor) : Editor :=
  (e.persist_add_buffer true).persist_delete_buffer

/-- Rust `Editor::add_char`: flush a pending deletion first, anchor the add
buffer if it was empty, append the character, advance the cursor, and flush on
`MustPersist`. -/
def Editor.add_char (e : Editor) (c : Char) : Editor :=
  let e := if ¬ e.temporary_delete_buffer.is_empty then e.persist_delete_buffer else e
  let e :=
    if e.temporary_add_buffer.buffer = [] then
      { e with temporary_add_buffer := e.temporary_add_buffer.update_position e.text_position }
    else e
  let r := e.temporary_add_buffer.add_char c
  let e := { e with temporary_add_buffer := r.2 }
  let e := { e with text_position := e.text_position + 1, cursor := e.cursor.move_right }
  let e := e.set_right_most_column e.cursor.x
  match r.1 with
  | .ok .MustPersist => e.persist_add_buffer true
  | _ => e

/-- Rust `Editor::delete_char`: no-op at position 0; deletes from the pending
add buffer when the cursor is on it, otherwise routes to the delete buffer
(flushing it when full); Backspace additionally moves the cursor left.  The
`none` (panic) outcome of `TemporaryBufferDeleteText::add_char` is mapped to
the unchanged editor; no theorem below evaluates a state that reaches it. -/
def Editor.delete_char (e : Editor) (key : KeyCode) : Editor :=
  if e.text_position > 0 then
    let deleted_position := e.text_position
    let e :=
      if e.temporary_add_buffer.buffer ≠ []
          ∧ e.temporary_add_buffer.is_cursor_on_buffer e.text_position then
        { e with temporary_add_buffer := e.temporary_add_buffer.delete_char }
      else
        match e.temporary_delete_buffer.add_char deleted_position key with
        | some (.ok .MustPersist, tdb) =>
          ({ e with temporary_delete_buffer := tdb }).persist_delete_buffer
        | some (_, tdb) => { e with temporary_delete_buffer := tdb }
        | none => e
    if key = .backspace then
      let e := { e with text_position := e.text_position - 1, cursor := e.cursor.move_left }
      e.set_right_most_column e.cursor.x
    else e
  else e

/-- Rust `Editor::delete_word`: flush the add buffer, compute the word range on
the effective text, on Backspace relocate the cursor to the range start, and
flush the delete buffer on `MustPersist`. -/
def Editor.delete_word (e : Editor) (key : KeyCode) : Editor :=
  let e := if e.temporary_add_buffer.buffer ≠ [] then e.persist_add_buffer true else e
  let r := e.temporary_delete_buffer.delete_word e.get_text e.text_position key
  let e := { e with temporary_delete_buffer := r.2 }
  let e :=
    if key = .backspace then
      match e.temporary_delete_buffer.get_deletion_range with
      | some (s, _) =>
        { e with
          text_position := s
          temporary_add_buffer := e.temporary_add_buffer.update_position s }
      | none => e
    else e
  match r.1 with
  | .ok .MustPersist => e.persist_delete_buffer
  | _ => e

/-- Rust `Editor::update_text_position_after_cursor_move`. -/
def Editor.update_text_position_after_cursor_move (e : Editor) : Editor :=
  let chars_count_up_to_previous_line :=
    (e.lines_map.take e.cursor.y).foldl (fun acc line_length => acc + line_length + 1) 0
  { e with text_position := chars_count_up_to_previous_line + e.cursor.x }

/-- Rust `Editor::handle_change_of_cursor_y_position`. -/
def Editor.handle_change_of_cursor_y_position (e : Editor) : Editor :=
  let line_length := (e.lines_map.get? e.cursor.y).getD 0
  let e :=
    if line_length < e.cursor.x then { e with cursor := { e.cursor with x := line_length } }
    else { e with cursor := { e.cursor with x := e.right_most_column } }
  e.update_text_position_after_cursor_move

/-- Rust `Editor::do_after_move_cursor`: persist both buffers, re-anchor the add
buffer, recompute the line map. -/
def Editor.do_after_move_cursor (e : Editor) : Editor :=
  let e := e.persist_changes
  let e := { e with temporary_add_buffer := e.temporary_add_buffer.update_position e.text_position }
  e.update_lines_map

/-- Rust `Editor::move_cursor_left`. -/
def Editor.move_cursor_left (e : Editor) : Editor :=
  if e.text_position > 0 then
    let e := { e with text_position := e.text_position - 1, cursor := e.cursor.move_left }
    let e := e.set_right_most_column e.cursor.x
    e.do_after_move_cursor
  else e

/-- Rust `Editor::move_cursor_right`. -/
def Editor.move_cursor_right (e : Editor) : Editor :=
  if e.text_position < e.content.total_length then
    let e := { e with text_position := e.text_position + 1, cursor := e.cursor.move_right }
    let e := e.set_right_most_column e.cursor.x
    e.do_after_move_cursor
  else e

/-- Rust `Editor::move_cursor_up`. -/
def Editor.move_cursor_up (e : Editor) : Editor :=
  let e := { e with cursor := e.cursor.move_up }
  let e := e.handle_change_of_cursor_y_position
  e.do_after_move_cursor

/-- Rust `Editor::move_cursor_down`. -/
def Editor.move_cursor_down (e : Editor) : Editor :=
  let e := { e with cursor := e.cursor.move_down }
  let e := e.handle_change_of_cursor_y_position
  e.do_after_move_cursor

/-- Rust `Editor::add_new_line`: persist everything, insert a newline directly
into the piece table, advance the cursor to the next line. -/
def Editor.add_new_line (e : Editor) : Editor :=
  let e := e.persist_changes
  let e := { e with content := (e.content.add_text ['\n'] e.text_position).2 }
  let e := { e with cursor := e.cursor.move_to_new_line, text_position := e.text_position + 1 }
  let e := { e with temporary_add_buffer := e.temporary_add_buffer.update_position e.text_position }
  let e := e.update_lines_map
  e.set_right_most_column 0

/-! Basic facts about piece slices. -/

theorem Piece.textFrom_take (b : List Char) (bt : BufferType) (st off len : Nat)
    (h : off ≤ len) :
    Piece.textFrom b ⟨bt, st, off⟩ = (Piece.textFrom b ⟨bt, st, len⟩).take off := by
  simp [Piece.textFrom, List.take_take, Nat.min_eq_left h]

theorem Piece.textFrom_drop (b : List Char) (bt : BufferType) (st off len : Nat) :
    Piece.textFrom b ⟨bt, st + off, len - off⟩ = (Piece.textFrom b ⟨bt, st, len⟩).drop off := by
  simp [Piece.textFrom, List.drop_take, List.drop_drop]

theorem Piece.textFrom_length (b : List Char) (bt : BufferType) (st len : Nat)
    (h : st + len ≤ b.length) :
    (Piece.textFrom b ⟨bt, st, len⟩).length = len := by
  simp [Piece.textFrom]
  omega

theorem PieceTable.pieceText_take (pt : PieceTable) (p : Piece) (off : Nat)
    (h : off ≤ p.length) :
    pt.pieceText ⟨p.buffer_type, p.start, off⟩ = (pt.pieceText p).take off := by
  obtain ⟨bt, st, len⟩ := p
  cases bt <;> simpa [PieceTable.pieceText] using Piece.textFrom_take _ _ st off len h

theorem PieceTable.pieceText_drop (pt : PieceTable) (p : Piece) (off : Nat) :
    pt.pieceText ⟨p.buffer_type, p.start + off, p.length - off⟩ = (pt.pieceText p).drop off := by
  obtain ⟨bt, st, len⟩ := p
  cases bt <;> simpa [PieceTable.pieceText] using Piece.textFrom_drop _ _ st off len

theorem PieceTable.pieceText_length (pt : PieceTable) (p : Piece) (h : p.wf pt) :
    (pt.pieceText p).length = p.length := by
  obtain ⟨bt, st, len⟩ := p
  cases bt <;>
    simpa [PieceTable.pieceText] using
      Piece.textFrom_length _ _ st len (by simpa [Piece.wf] using h)

theorem PieceTable.pieceText_append (pt : PieceTable) (t : List Char) (p : Piece)
    (h : p.wf pt) :
    PieceTable.pieceText { pt with add_buffer := pt.add_buffer ++ t } p = pt.pieceText p := by
  obtain ⟨bt, st, len⟩ := p
  cases bt with
  | Original => rfl
  | Added =>
    simp only [Piece.wf] at h
    simp only [PieceTable.pieceText, Piece.textFrom]
    rw [List.drop_append_eq_append_drop, List.take_append_eq_append_take]
    have h1 : st - pt.add_buffer.length = 0 := by omega
    have h2 : len - (pt.add_buffer.drop st).length = 0 := by
      simp [List.length_drop]; omega
    rw [h1]
    simp [h2]
    left
    omega

theorem PieceTable.pieceText_newPiece (pt : PieceTable) (t : List Char) :
    PieceTable.pieceText { pt with add_buffer := pt.add_buffer ++ t }
      ⟨.Added, pt.add_buffer.length, t.length⟩ = t := by
  simp [PieceTable.pieceText, Piece.textFrom, List.drop_left]

/-! Splice correctness of the insert piece-list transformation. -/

theorem insertPieces_flatten (pt' : PieceTable) (ps : List Piece) (newP : Piece) (pos : Nat)
    (hlen : ∀ p ∈ ps, (pt'.pieceText p).length = p.length)
    (hpos : pos ≤ (ps.map Piece.length).sum) :
    ((insertPieces ps newP pos).map pt'.pieceText).flatten
      = ((ps.map pt'.pieceText).flatten.take pos)
        ++ pt'.pieceText newP
        ++ ((ps.map pt'.pieceText).flatten.drop pos) := by
  induction ps generalizing pos with
  | nil =>
    simp only [List.map_nil, List.sum_nil, Nat.le_zero] at hpos
    subst hpos
    simp [insertPieces]
  | cons p rest ih =>
    have hp : (pt'.pieceText p).length = p.length := hlen p (by simp)
    have hrest : ∀ q ∈ rest, (pt'.pieceText q).length = q.length :=
      fun q hq => hlen q (by simp [hq])
    simp only [List.map_cons, List.sum_cons] at hpos
    by_cases hle : pos ≤ p.length
    · have htake := pt'.pieceText_take p pos hle
      have hdrop := pt'.pieceText_drop p pos
      have hT : List.take pos (pt'.pieceText p ++ (rest.map pt'.pieceText).flatten)
          = (pt'.pieceText p).take pos := by
        rw [List.take_append_eq_append_take]
        have h0 : pos - (pt'.pieceText p).length = 0 := by omega
        simp [h0]
      have hD : List.drop pos (pt'.pieceText p ++ (rest.map pt'.pieceText).flatten)
          = (pt'.pieceText p).drop pos ++ (rest.map pt'.pieceText).flatten := by
        rw [List.drop_append_eq_append_drop]
        have h0 : pos - (pt'.pieceText p).length = 0 := by omega
        simp [h0]
      simp only [insertPieces, if_pos hle, List.map_cons, List.flatten_cons, List.map_append,
        List.flatten_append, hT, hD]
      have heta : (⟨p.buffer_type, p.start, p.length⟩ : Piece) = p := rfl
      by_cases h0 : 0 < pos <;> by_cases h1 : pos < p.length
      · simp [h0, h1, htake, hdrop, List.append_assoc]
      · have hdl : (pt'.pieceText p).drop pos = [] := List.drop_of_length_le (by omega)
        simp [h0, h1, htake, hdl, List.append_assoc]
      · have hz : pos = 0 := by omega
        subst hz
        simp [h1, heta, List.append_assoc]
      · have hz : pos = 0 := by omega
        subst hz
        have hlz : p.length = 0 := by omega
        have hnil : pt'.pieceText p = [] := List.eq_nil_of_length_eq_zero (by omega)
        simp [hlz, hnil, List.append_assoc]
    · push_neg at hle
      simp only [insertPieces, if_neg (by omega : ¬ pos ≤ p.length), List.map_cons,
        List.flatten_cons]
      rw [ih (pos - p.length) hrest (by omega)]
      rw [List.take_append_eq_append_take, List.drop_append_eq_append_drop]
      have ht : List.take pos (pt'.pieceText p) = pt'.pieceText p :=
        List.take_of_length_le (by omega)
      have hd : List.drop pos (pt'.pieceText p) = [] := List.drop_of_length_le (by omega)
      simp [ht, hd, hp, List.append_assoc]

/-! Splice-out correctness of the delete piece-list transformation. -/

theorem deleteEnd_flatten (pt' : PieceTable) (ps : List Piece) (e : Nat)
    (hlen : ∀ p ∈ ps, (pt'.pieceText p).length = p.length)
    (he0 : 0 < e) (he : e ≤ (ps.map Piece.length).sum) :
    ∃ t, deleteEnd ps e = some t ∧
      (t.map pt'.pieceText).flatten = ((ps.map pt'.pieceText).flatten).drop e := by
  induction ps generalizing e with
  | nil => simp at he; omega
  | cons p rest ih =>
    have hp : (pt'.pieceText p).length = p.length := hlen p (by simp)
    have hrest : ∀ q ∈ rest, (pt'.pieceText q).length = q.length :=
      fun q hq => hlen q (by simp [hq])
    simp only [List.map_cons, List.sum_cons] at he
    by_cases hc : 0 < e ∧ e ≤ p.length
    · refine ⟨(if e < p.length then [(⟨p.buffer_type, p.start + e, p.length - e⟩ : Piece)]
          else []) ++ rest, by simp only [deleteEnd, if_pos hc], ?_⟩
      have hdrop := pt'.pieceText_drop p e
      rw [List.map_cons, List.flatten_cons, List.drop_append_eq_append_drop]
      have h0 : e - (pt'.pieceText p).length = 0 := by omega
      by_cases h1 : e < p.length
      · simp [h1, hdrop, h0]
      · have hdl : (pt'.pieceText p).drop e = [] := List.drop_of_length_le (by omega)
        simp [h1, hdl, h0]
    · have hgt : p.length < e := by omega
      obtain ⟨t, ht, hflat⟩ := ih (e - p.length) hrest (by omega) (by omega)
      refine ⟨t, ?_, ?_⟩
      · simp only [deleteEnd, if_neg hc]
        exact ht
      · rw [List.map_cons, List.flatten_cons, List.drop_append_eq_append_drop]
        have hdl : (pt'.pieceText p).drop e = [] := List.drop_of_length_le (by omega)
        rw [hflat, hdl, hp]
        simp

theorem deleteFrom_flatten (pt' : PieceTable) (ps : List Piece) (s e : Nat)
    (hlen : ∀ p ∈ ps, (pt'.pieceText p).length = p.length)
    (hse : s < e) (he : e ≤ (ps.map Piece.length).sum) :
    ∃ t, deleteFrom ps s e = some t ∧
      (t.map pt'.pieceText).flatten
        = ((ps.map pt'.pieceText).flatten).take s
          ++ ((ps.map pt'.pieceText).flatten).drop e := by
  induction ps generalizing s e with
  | nil => simp at he; omega
  | cons p rest ih =>
    have hp : (pt'.pieceText p).length = p.length := hlen p (by simp)
    have hrest : ∀ q ∈ rest, (pt'.pieceText q).length = q.length :=
      fun q hq => hlen q (by simp [hq])
    simp only [List.map_cons, List.sum_cons] at he
    by_cases hs : s < p.length
    · obtain ⟨t0, ht0, hf0⟩ :=
        deleteEnd_flatten pt' (p :: rest) e hlen (by omega) (by simp; omega)
      refine ⟨(if 0 < s then [(⟨p.buffer_type, p.start, s⟩ : Piece)] else []) ++ t0,
        by simp only [deleteFrom, if_pos hs, ht0], ?_⟩
      have htake := pt'.pieceText_take p s (by omega)
      rw [List.map_append, List.flatten_append, hf0]
      have hT : List.take s ((List.map pt'.pieceText (p :: rest)).flatten)
          = (pt'.pieceText p).take s := by
        rw [List.map_cons, List.flatten_cons, List.take_append_eq_append_take]
        have h0 : s - (pt'.pieceText p).length = 0 := by omega
        simp [h0]
      rw [hT]
      by_cases h0 : 0 < s
      · simp [h0, htake]
      · have hz : s = 0 := by omega
        simp [hz]
    · push_neg at hs
      obtain ⟨t, ht, hflat⟩ := ih (s - p.length) (e - p.length) hrest (by omega) (by omega)
      refine ⟨p :: t, ?_, ?_⟩
      · simp only [deleteFrom, if_neg (by omega : ¬ s < p.length), ht]
        rfl
      · rw [List.map_cons, List.flatten_cons, hflat, List.map_cons, List.flatten_cons,
          List.take_append_eq_append_take, List.drop_append_eq_append_drop]
        have ht1 : List.take s (pt'.pieceText p) = pt'.pieceText p :=
          List.take_of_length_le (by omega)
        have hd1 : List.drop e (pt'.pieceText p) = [] := List.drop_of_length_le (by omega)
        rw [ht1, hd1, hp]
        simp [List.append_assoc]

/-! Structural facts: the transformed piece lists consist of the new piece and
sub-spans of the old pieces, and splits never emit empty pieces. -/

/-- Statement that `q` describes a sub-span of `p` in the same buffer. -/
def SubPiece (q p : Piece) : Prop :=
  q.buffer_type = p.buffer_type ∧ p.start ≤ q.start ∧ q.start + q.length ≤ p.start + p.length

theorem SubPiece.refl (p : Piece) : SubPiece p p := ⟨rfl, Nat.le_refl _, Nat.le_refl _⟩

theorem SubPiece.wf {pt : PieceTable} {q p : Piece} (hs : SubPiece q p) (hw : p.wf pt) :
    q.wf pt := by
  obtain ⟨hb, h1, h2⟩ := hs
  unfold Piece.wf at hw ⊢
  rw [hb]
  cases hbt : p.buffer_type <;> rw [hbt] at hw <;> omega

theorem insertPieces_mem (ps : List Piece) (newP : Piece) (pos : Nat) :
    ∀ q ∈ insertPieces ps newP pos, q = newP ∨ ∃ p ∈ ps, SubPiece q p := by
  induction ps generalizing pos with
  | nil => intro q hq; simp [insertPieces] at hq; exact Or.inl hq
  | cons p rest ih =>
    intro q hq
    by_cases hle : pos ≤ p.length
    · simp only [insertPieces, if_pos hle] at hq
      simp only [List.append_assoc, List.mem_append] at hq
      rcases hq with hq | hq | hq | hq
      · split at hq
        · simp only [List.mem_singleton] at hq
          subst hq
          exact Or.inr ⟨p, by simp, ⟨rfl, Nat.le_refl _,
            show p.start + pos ≤ p.start + p.length by omega⟩⟩
        · simp at hq
      · simp only [List.mem_singleton] at hq
        exact Or.inl hq
      · split at hq
        · simp only [List.mem_singleton] at hq
          subst hq
          exact Or.inr ⟨p, by simp, ⟨rfl, Nat.le_add_right _ _,
            show p.start + pos + (p.length - pos) ≤ p.start + p.length by omega⟩⟩
        · simp at hq
      · exact Or.inr ⟨q, by simp [hq], SubPiece.refl q⟩
    · simp only [insertPieces, if_neg hle, List.mem_cons] at hq
      rcases hq with hq | hq
      · exact Or.inr ⟨p, by simp, by rw [hq]; exact SubPiece.refl p⟩
      · rcases ih (pos - p.length) q hq with h | ⟨p', hp', hsp⟩
        · exact Or.inl h
        · exact Or.inr ⟨p', by simp [hp'], hsp⟩

theorem deleteEnd_mem (ps : List Piece) (e : Nat) (t : List Piece)
    (h : deleteEnd ps e = some t) : ∀ q ∈ t, ∃ p ∈ ps, SubPiece q p := by
  induction ps generalizing e t with
  | nil => simp [deleteEnd] at h
  | cons p rest ih =>
    intro q hq
    by_cases hc : 0 < e ∧ e ≤ p.length
    · simp only [deleteEnd, if_pos hc, Option.some_inj] at h
      subst h
      simp only [List.mem_append] at hq
      rcases hq with hq | hq
      · split at hq
        · simp only [List.mem_singleton] at hq
          subst hq
          exact ⟨p, by simp, ⟨rfl, Nat.le_add_right _ _,
            show p.start + e + (p.length - e) ≤ p.start + p.length by omega⟩⟩
        · simp at hq
      · exact ⟨q, by simp [hq], SubPiece.refl q⟩
    · simp only [deleteEnd, if_neg hc] at h
      obtain ⟨p', hp', hsp⟩ := ih (e - p.length) t h q hq
      exact ⟨p', by simp [hp'], hsp⟩

theorem deleteFrom_mem (ps : List Piece) (s e : Nat) (t : List Piece)
    (h : deleteFrom ps s e = some t) : ∀ q ∈ t, ∃ p ∈ ps, SubPiece q p := by
  induction ps generalizing s e t with
  | nil => simp [deleteFrom] at h
  | cons p rest ih =>
    intro q hq
    by_cases hs : s < p.length
    · simp only [deleteFrom, if_pos hs, Option.some_inj] at h
      subst h
      simp only [List.mem_append] at hq
      rcases hq with hq | hq
      · split at hq
        · simp only [List.mem_singleton] at hq
          subst hq
          exact ⟨p, by simp, ⟨rfl, Nat.le_refl _,
            show p.start + s ≤ p.start + p.length by omega⟩⟩
        · simp at hq
      · rcases hde : deleteEnd (p :: rest) e with _ | t0
        · rw [hde] at hq
          simp only at hq
          split at hq
          · simp only [List.mem_singleton] at hq
            subst hq
            exact ⟨_, List.getLast_mem (List.cons_ne_nil p rest), SubPiece.refl _⟩
          · simp at hq
        · rw [hde] at hq
          simp only at hq
          exact deleteEnd_mem (p :: rest) e t0 hde q hq
    · simp only [deleteFrom, if_neg hs] at h
      rcases hdf : deleteFrom rest (s - p.length) (e - p.length) with _ | t'
      · rw [hdf] at h; simp at h
      · rw [hdf] at h
        simp only [Option.map_some', Option.some_inj] at h
        subst h
        rcases List.mem_cons.mp hq with hq | hq
        · exact ⟨p, by simp, by rw [hq]; exact SubPiece.refl p⟩
        · obtain ⟨p', hp', hsp⟩ := ih (s - p.length) (e - p.length) t' hdf q hq
          exact ⟨p', by simp [hp'], hsp⟩

theorem insertPieces_pos (ps : List Piece) (newP : Piece) (pos : Nat)
    (hps : ∀ p ∈ ps, 0 < p.length) (hnew : 0 < newP.length) :
    ∀ q ∈ insertPieces ps newP pos, 0 < q.length := by
  induction ps generalizing pos with
  | nil =>
    intro q hq
    simp only [insertPieces, List.mem_singleton] at hq
    subst hq
    exact hnew
  | cons p rest ih =>
    intro q hq
    by_cases hle : pos ≤ p.length
    · simp only [insertPieces, if_pos hle, List.append_assoc, List.mem_append] at hq
      rcases hq with hq | hq | hq | hq
      · split at hq
        · simp only [List.mem_singleton] at hq
          subst hq
          show 0 < pos
          omega
        · simp at hq
      · simp only [List.mem_singleton] at hq
        subst hq
        exact hnew
      · split at hq
        · simp only [List.mem_singleton] at hq
          subst hq
          show 0 < p.length - pos
          omega
        · simp at hq
      · exact hps q (by simp [hq])
    · simp only [insertPieces, if_neg hle, List.mem_cons] at hq
      rcases hq with hq | hq
      · exact hq ▸ hps p (by simp)
      · exact ih (pos - p.length) (fun r hr => hps r (by simp [hr])) q hq

theorem deleteEnd_pos (ps : List Piece) (e : Nat) (t : List Piece)
    (hps : ∀ p ∈ ps, 0 < p.length) (h : deleteEnd ps e = some t) :
    ∀ q ∈ t, 0 < q.length := by
  induction ps generalizing e t with
  | nil => simp [deleteEnd] at h
  | cons p rest ih =>
    intro q hq
    by_cases hc : 0 < e ∧ e ≤ p.length
    · simp only [deleteEnd, if_pos hc, Option.some_inj] at h
      subst h
      simp only [List.mem_append] at hq
      rcases hq with hq | hq
      · split at hq
        · simp only [List.mem_singleton] at hq
          subst hq
          show 0 < p.length - e
          omega
        · simp at hq
      · exact hps q (by simp [hq])
    · simp only [deleteEnd, if_neg hc] at h
      exact ih (e - p.length) t (fun r hr => hps r (by simp [hr])) h q hq

theorem deleteFrom_pos (ps : List Piece) (s e : Nat) (t : List Piece)
    (hps : ∀ p ∈ ps, 0 < p.length) (h : deleteFrom ps s e = some t) :
    ∀ q ∈ t, 0 < q.length := by
  induction ps generalizing s e t with
  | nil => simp [deleteFrom] at h
  | cons p rest ih =>
    intro q hq
    by_cases hs : s < p.length
    · simp only [deleteFrom, if_pos hs, Option.some_inj] at h
      subst h
      simp only [List.mem_append] at hq
      rcases hq with hq | hq
      · split at hq
        · simp only [List.mem_singleton] at hq
          subst hq
          show 0 < s
          omega
        · simp at hq
      · rcases hde : deleteEnd (p :: rest) e with _ | t0
        · rw [hde] at hq
          simp only at hq
          split at hq
          · simp only [List.mem_singleton] at hq
            subst hq
            omega
          · simp at hq
        · rw [hde] at hq
          simp only at hq
          exact deleteEnd_pos (p :: rest) e t0 hps hde q hq
    · simp only [deleteFrom, if_neg hs] at h
      rcases hdf : deleteFrom rest (s - p.length) (e - p.length) with _ | t'
      · rw [hdf] at h; simp at h
      · rw [hdf] at h
        simp only [Option.map_some', Option.some_inj] at h
        subst h
        rcases List.mem_cons.mp hq with hq | hq
        · exact hq ▸ hps p (by simp)
        · exact ih (s - p.length) (e - p.length) t'
            (fun r hr => hps r (by simp [hr])) hdf q hq

/-! Invariant carried by every reachable piece table. -/

/-- Reachable-state invariant: all pieces stay inside their buffers, and the
piece list has no empty piece except in the untouched empty initial document
(`new("")` creates one `Original` piece of length 0). -/
def PieceTable.inv (pt : PieceTable) : Prop :=
  pt.wf ∧ ((∀ p ∈ pt.pieces, 0 < p.length) ∨ pt.pieces = [⟨.Original, 0, 0⟩])

theorem Piece.wf_append {pt : PieceTable} {p : Piece} (t : List Char) (h : p.wf pt) :
    p.wf { pt with add_buffer := pt.add_buffer ++ t } := by
  unfold Piece.wf at h ⊢
  cases hb : p.buffer_type <;> rw [hb] at h <;> simp <;> omega

theorem newPiece_wf (pt : PieceTable) (t : List Char) :
    Piece.wf { pt with add_buffer := pt.add_buffer ++ t }
      ⟨.Added, pt.add_buffer.length, t.length⟩ := by
  unfold Piece.wf
  simp

theorem PieceTable.new_inv (text : List Char) : (PieceTable.new text).inv := by
  constructor
  · intro p hp
    simp only [PieceTable.new, List.mem_singleton] at hp
    subst hp
    unfold Piece.wf
    simp [PieceTable.new]
  · rcases Nat.eq_zero_or_pos text.length with h | h
    · exact Or.inr (by simp [PieceTable.new, h])
    · refine Or.inl ?_
      intro p hp
      simp only [PieceTable.new, List.mem_singleton] at hp
      subst hp
      exact h

theorem PieceTable.add_text_eq (pt : PieceTable) (text : List Char) (pos : Nat)
    (ht : text ≠ []) (hpos : pos ≤ pt.total_length) :
    pt.add_text text pos =
      (.ok (), { original_buffer := pt.original_buffer
                 add_buffer := pt.add_buffer ++ text
                 pieces := insertPieces pt.pieces
                   ⟨.Added, pt.add_buffer.length, text.length⟩ pos }) := by
  by_cases hsp : pos = 0 ∧ pt.pieces = []
  · obtain ⟨h1, h2⟩ := hsp
    subst h1
    simp [PieceTable.add_text, ht, Nat.not_lt.mpr hpos, h2, insertPieces]
  · simp [PieceTable.add_text, ht, Nat.not_lt.mpr hpos, hsp]

theorem PieceTable.add_text_inv (pt : PieceTable) (text : List Char) (pos : Nat)
    (h : pt.inv) : ((pt.add_text text pos).2).inv := by
  obtain ⟨hw, hg⟩ := h
  by_cases ht : text = []
  · simpa [PieceTable.add_text, ht] using ⟨hw, hg⟩
  by_cases hpos : pos > pt.total_length
  · simpa [PieceTable.add_text, ht, hpos] using ⟨hw, hg⟩
  rw [PieceTable.add_text_eq pt text pos ht (by omega)]
  have htl : 0 < text.length := List.length_pos.mpr ht
  constructor
  · intro q hq
    rcases insertPieces_mem pt.pieces _ pos q hq with hq' | ⟨p, hp, hsp⟩
    · subst hq'
      exact newPiece_wf pt text
    · exact hsp.wf (Piece.wf_append text (hw p hp))
  · refine Or.inl ?_
    rcases hg with hg | hg
    · exact insertPieces_pos pt.pieces _ pos hg htl
    · have hz : pos = 0 := by
        have : pt.total_length = 0 := by simp [PieceTable.total_length, hg]
        omega
      subst hz
      intro q hq
      simp only [hg, insertPieces] at hq
      simp only [Nat.le_refl, if_pos, Nat.lt_irrefl, if_neg, List.append_nil] at hq
      simp at hq
      subst hq
      exact htl

theorem PieceTable.delete_text_inv (pt : PieceTable) (s e : Nat)
    (h : pt.inv) : ((pt.delete_text s e).2).inv := by
  obtain ⟨hw, hg⟩ := h
  by_cases h1 : s > pt.total_length
  · simpa [PieceTable.delete_text, h1] using ⟨hw, hg⟩
  by_cases h2 : e > pt.total_length
  · simpa [PieceTable.delete_text, h1, h2] using ⟨hw, hg⟩
  by_cases h3 : s > e
  · simpa [PieceTable.delete_text, h1, h2, h3] using ⟨hw, hg⟩
  by_cases h4 : s = e
  · simpa [PieceTable.delete_text, h1, h2, h3, h4] using ⟨hw, hg⟩
  rcases hdf : deleteFrom pt.pieces s e with _ | t
  · simpa [PieceTable.delete_text, h1, h2, h3, h4, hdf] using ⟨hw, hg⟩
  have hres : (pt.delete_text s e).2 = { pt with pieces := t } := by
    simp [PieceTable.delete_text, h1, h2, h3, h4, hdf]
  rw [hres]
  have hpos : ∀ p ∈ pt.pieces, 0 < p.length := by
    rcases hg with hg | hg
    · exact hg
    · exfalso
      have : pt.total_length = 0 := by simp [PieceTable.total_length, hg]
      omega
  constructor
  · intro q hq
    obtain ⟨p, hp, hsp⟩ := deleteFrom_mem pt.pieces s e t hdf q hq
    have : q.wf pt := hsp.wf (hw p hp)
    unfold Piece.wf at this ⊢
    exact this
  · exact Or.inl (fun q hq => deleteFrom_pos pt.pieces s e t hpos hdf q hq)

theorem reachable_inv {pt : PieceTable} (h : Reachable pt) : pt.inv := by
  induction h with
  | base text => exact PieceTable.new_inv text
  | add pt text position _ _ ih => exact PieceTable.add_text_inv pt text position ih
  | del pt s e _ _ ih => exact PieceTable.delete_text_inv pt s e ih

/-- Length of the reconstructed text of a well-formed table. -/
theorem PieceTable.get_text_length (pt : PieceTable) (h : pt.wf) :
    pt.get_text.length = pt.total_length := by
  unfold PieceTable.get_text PieceTable.total_length
  rw [List.length_flatten, List.map_map]
  congr 1
  exact List.map_congr_left fun p hp => pt.pieceText_length p (h p hp)

theorem PieceTable.pieceText_ext {pt1 pt2 : PieceTable}
    (h1 : pt1.original_buffer = pt2.original_buffer)
    (h2 : pt1.add_buffer = pt2.add_buffer) :
    pt1.pieceText = pt2.pieceText := by
  funext p
  unfold PieceTable.pieceText
  cases p.buffer_type
  · rw [h1]
  · rw [h2]

/-- Splice form of a valid non-empty insertion on a well-formed table. -/
theorem PieceTable.add_text_spec (pt : PieceTable) (text : List Char) (pos : Nat)
    (hw : pt.wf) (ht : text ≠ []) (hpos : pos ≤ pt.total_length) :
    (pt.add_text text pos).1 = .ok () ∧
    (pt.add_text text pos).2.get_text
      = pt.get_text.take pos ++ text ++ pt.get_text.drop pos := by
  rw [PieceTable.add_text_eq pt text pos ht hpos]
  refine ⟨rfl, ?_⟩
  have hfun : (⟨pt.original_buffer, pt.add_buffer ++ text,
        insertPieces pt.pieces ⟨.Added, pt.add_buffer.length, text.length⟩ pos⟩
        : PieceTable).pieceText
      = ({ pt with add_buffer := pt.add_buffer ++ text } : PieceTable).pieceText :=
    PieceTable.pieceText_ext rfl rfl
  have hlen : ∀ p ∈ pt.pieces,
      (({ pt with add_buffer := pt.add_buffer ++ text } : PieceTable).pieceText p).length
        = p.length := by
    intro p hp
    rw [PieceTable.pieceText_append pt text p (hw p hp)]
    exact pt.pieceText_length p (hw p hp)
  have hmain := insertPieces_flatten ({ pt with add_buffer := pt.add_buffer ++ text })
    pt.pieces ⟨.Added, pt.add_buffer.length, text.length⟩ pos hlen
    (by simpa [PieceTable.total_length] using hpos)
  have hgt : (⟨pt.original_buffer, pt.add_buffer ++ text,
        insertPieces pt.pieces ⟨.Added, pt.add_buffer.length, text.length⟩ pos⟩
        : PieceTable).get_text
      = ((insertPieces pt.pieces ⟨.Added, pt.add_buffer.length, text.length⟩ pos).map
          ({ pt with add_buffer := pt.add_buffer ++ text } : PieceTable).pieceText).flatten := by
    show ((insertPieces pt.pieces ⟨.Added, pt.add_buffer.length, text.length⟩ pos).map
        (⟨pt.original_buffer, pt.add_buffer ++ text,
          insertPieces pt.pieces ⟨.Added, pt.add_buffer.length, text.length⟩ pos⟩
          : PieceTable).pieceText).flatten = _
    rw [hfun]
  rw [hgt, hmain]
  have hJ : List.map ({ pt with add_buffer := pt.add_buffer ++ text }
        : PieceTable).pieceText pt.pieces = List.map pt.pieceText pt.pieces :=
    List.map_congr_left fun p hp => PieceTable.pieceText_append pt text p (hw p hp)
  rw [hJ, PieceTable.pieceText_newPiece pt text]
  rfl

/-- Splice form of a valid deletion on a well-formed table. -/
theorem PieceTable.delete_text_spec (pt : PieceTable) (s e : Nat)
    (hw : pt.wf) (hse : s ≤ e) (he : e ≤ pt.total_length) :
    (pt.delete_text s e).1 = .ok () ∧
    (pt.delete_text s e).2.get_text = pt.get_text.take s ++ pt.get_text.drop e := by
  have h1 : ¬ s > pt.total_length := by omega
  have h2 : ¬ e > pt.total_length := by omega
  have h3 : ¬ s > e := by omega
  by_cases heq : s = e
  · subst heq
    constructor
    · simp [PieceTable.delete_text, h1, h2, h3]
    · simp only [PieceTable.delete_text, h1, h2, h3]
      simp [List.take_append_drop]
  · have hse' : s < e := by omega
    have hlen : ∀ p ∈ pt.pieces, (pt.pieceText p).length = p.length :=
      fun p hp => pt.pieceText_length p (hw p hp)
    obtain ⟨t, hdf, hflat⟩ := deleteFrom_flatten pt pt.pieces s e hlen hse'
      (by simpa [PieceTable.total_length] using he)
    have hres : pt.delete_text s e = (.ok (), { pt with pieces := t }) := by
      simp [PieceTable.delete_text, h1, h2, h3, heq, hdf]
    rw [hres]
    refine ⟨rfl, ?_⟩
    have hfun : ({ pt with pieces := t } : PieceTable).pieceText = pt.pieceText :=
      PieceTable.pieceText_ext rfl rfl
    show (List.map ({ pt with pieces := t } : PieceTable).pieceText t).flatten = _
    rw [hfun, hflat]
    rfl

theorem deleteFrom_isSome (ps : List Piece) (s e : Nat)
    (hs : s < (ps.map Piece.length).sum) : (deleteFrom ps s e).isSome = true := by
  induction ps generalizing s e with
  | nil => simp at hs
  | cons p rest ih =>
    simp only [List.map_cons, List.sum_cons] at hs
    by_cases hsp : s < p.length
    · simp only [deleteFrom, if_pos hsp, Option.isSome_some]
    · simp only [deleteFrom, if_neg hsp]
      have h := ih (s - p.length) (e - p.length) (by omega)
      rcases hdf : deleteFrom rest (s - p.length) (e - p.length) with _ | t
      · rw [hdf] at h; simp at h
      · rfl

/-- Nonempty-piece property of the result of a valid non-empty insertion. -/
theorem add_text_pieces_pos (pt : PieceTable) (text : List Char) (pos : Nat)
    (h : pt.inv) (ht : text ≠ []) (hpos : pos ≤ pt.total_length) :
    ∀ q ∈ (pt.add_text text pos).2.pieces, 0 < q.length := by
  obtain ⟨hw, hg⟩ := h
  rw [PieceTable.add_text_eq pt text pos ht hpos]
  have htl : 0 < text.length := List.length_pos.mpr ht
  rcases hg with hg | hg
  · exact insertPieces_pos pt.pieces _ pos hg htl
  · have hz : pos = 0 := by
      have : pt.total_length = 0 := by simp [PieceTable.total_length, hg]
      omega
    subst hz
    intro q hq
    simp only [hg, insertPieces] at hq
    simp only [Nat.le_refl, if_pos, Nat.lt_irrefl, if_neg, List.append_nil] at hq
    simp at hq
    subst hq
    exact htl

/-- Nonempty-piece property of the result of a valid non-trivial deletion. -/
theorem delete_text_pieces_pos (pt : PieceTable) (s e : Nat)
    (h : pt.inv) (hse : s < e) (he : e ≤ pt.total_length) :
    ∀ q ∈ (pt.delete_text s e).2.pieces, 0 < q.length := by
  obtain ⟨hw, hg⟩ := h
  have h1 : ¬ s > pt.total_length := by omega
  have h2 : ¬ e > pt.total_length := by omega
  have h3 : ¬ s > e := by omega
  have h4 : ¬ s = e := by omega
  have hpos : ∀ p ∈ pt.pieces, 0 < p.length := by
    rcases hg with hg | hg
    · exact hg
    · exfalso
      have : pt.total_length = 0 := by simp [PieceTable.total_length, hg]
      omega
  have hs : s < (pt.pieces.map Piece.length).sum := by
    have : pt.total_length = (pt.pieces.map Piece.length).sum := rfl
    omega
  have hsome := deleteFrom_isSome pt.pieces s e hs
  rcases hdf : deleteFrom pt.pieces s e with _ | t
  · rw [hdf] at hsome; simp at hsome
  · have hres : (pt.delete_text s e).2 = { pt with pieces := t } := by
      simp [PieceTable.delete_text, h1, h2, h3, h4, hdf]
    rw [hres]
    exact fun q hq => deleteFrom_pos pt.pieces s e t hpos hdf q hq

/-! Claim theorems for the piece table. -/

/-- C1: for every reachable piece table, every non-empty text, and every
position ≤ `total_length()`, `add_text(text, position)` succeeds and afterwards
`get_text()` equals the prior text with `text` spliced in at `position`, and
`total_length()` has increased by `text.len()`. -/
theorem C1_add_text_postcondition (pt : PieceTable) (text : List Char) (pos : Nat)
    (hr : Reachable pt) (ht : text ≠ []) (hpos : pos ≤ pt.total_length) :
    (pt.add_text text pos).1 = .ok () ∧
    (pt.add_text text pos).2.get_text
      = pt.get_text.take pos ++ text ++ pt.get_text.drop pos ∧
    (pt.add_text text pos).2.total_length = pt.total_length + text.length := by
  have hinv := reachable_inv hr
  obtain ⟨hok, hgt⟩ := PieceTable.add_text_spec pt text pos hinv.1 ht hpos
  refine ⟨hok, hgt, ?_⟩
  have hw' := (PieceTable.add_text_inv pt text pos hinv).1
  have h1 := PieceTable.get_text_length _ hw'
  have h0 := PieceTable.get_text_length pt hinv.1
  rw [← h1, hgt]
  simp only [List.length_append, List.length_take, List.length_drop]
  omega

/-- Witness for C1: Scenario A's input, `new("Hello world")` with
`add_text("beautiful ", 5)`. -/
theorem C1_add_text_postcondition_witness :
    ((PieceTable.new ("Hello world".toList)).add_text ("beautiful ".toList) 5).1 = .ok () ∧
    ((PieceTable.new ("Hello world".toList)).add_text ("beautiful ".toList) 5).2.get_text
      = (PieceTable.new ("Hello world".toList)).get_text.take 5
        ++ ("beautiful ".toList)
        ++ (PieceTable.new ("Hello world".toList)).get_text.drop 5 ∧
    ((PieceTable.new ("Hello world".toList)).add_text ("beautiful ".toList) 5).2.total_length
      = (PieceTable.new ("Hello world".toList)).total_length + ("beautiful ".toList).length :=
  C1_add_text_postcondition (PieceTable.new ("Hello world".toList)) ("beautiful ".toList) 5
    (Reachable.base ("Hello world".toList)) (by decide) (by decide)

/-- C2: for every reachable piece table and every half-open range with
start ≤ end ≤ `total_length()`, `delete_text(start, end)` succeeds and
afterwards `get_text()` equals the prior text with the bytes `[start, end)`
removed, and `total_length()` has decreased by `end - start`. -/
theorem C2_delete_text_postcondition (pt : PieceTable) (s e : Nat)
    (hr : Reachable pt) (hse : s ≤ e) (he : e ≤ pt.total_length) :
    (pt.delete_text s e).1 = .ok () ∧
    (pt.delete_text s e).2.get_text = pt.get_text.take s ++ pt.get_text.drop e ∧
    (pt.delete_text s e).2.total_length = pt.total_length - (e - s) := by
  have hinv := reachable_inv hr
  obtain ⟨hok, hgt⟩ := PieceTable.delete_text_spec pt s e hinv.1 hse he
  refine ⟨hok, hgt, ?_⟩
  have hw' := (PieceTable.delete_text_inv pt s e hinv).1
  have h1 := PieceTable.get_text_length _ hw'
  have h0 := PieceTable.get_text_length pt hinv.1
  rw [← h1, hgt]
  simp only [List.length_append, List.length_take, List.length_drop]
  omega

/-- Witness for C2: Scenario B's input, `new("ABCXXXXDEF")` with
`delete_text(3, 7)`. -/
theorem C2_delete_text_postcondition_witness :
    ((PieceTable.new ("ABCXXXXDEF".toList)).delete_text 3 7).1 = .ok () ∧
    ((PieceTable.new ("ABCXXXXDEF".toList)).delete_text 3 7).2.get_text
      = (PieceTable.new ("ABCXXXXDEF".toList)).get_text.take 3
        ++ (PieceTable.new ("ABCXXXXDEF".toList)).get_text.drop 7 ∧
    ((PieceTable.new ("ABCXXXXDEF".toList)).delete_text 3 7).2.total_length
      = (PieceTable.new ("ABCXXXXDEF".toList)).total_length - (7 - 3) :=
  C2_delete_text_postcondition (PieceTable.new ("ABCXXXXDEF".toList)) 3 7
    (Reachable.base ("ABCXXXXDEF".toList)) (by decide) (by decide)

/-- C6: in every reachable piece table, `total_length()` equals
`get_text().len()` and equals the sum of all piece lengths. -/
theorem C6_length_invariant (pt : PieceTable) (hr : Reachable pt) :
    pt.total_length = pt.get_text.length ∧
    pt.total_length = (pt.pieces.map Piece.length).sum :=
  ⟨(PieceTable.get_text_length pt (reachable_inv hr).1).symm, rfl⟩

/-- Witness for C6 at a table reached by an insert followed by a delete. -/
theorem C6_length_invariant_witness :
    (((PieceTable.new ("abc".toList)).add_text ("XY".toList) 1).2.total_length
      = ((PieceTable.new ("abc".toList)).add_text ("XY".toList) 1).2.get_text.length) ∧
    (((PieceTable.new ("abc".toList)).add_text ("XY".toList) 1).2.total_length
      = (((PieceTable.new ("abc".toList)).add_text ("XY".toList) 1).2.pieces.map
          Piece.length).sum) :=
  C6_length_invariant ((PieceTable.new ("abc".toList)).add_text ("XY".toList) 1).2
    (Reachable.add (PieceTable.new ("abc".toList)) ("XY".toList) 1
      (Reachable.base ("abc".toList)) (by rfl))

/-- C7 counterexample: `new("")` creates a single piece of length 0, and the
no-op success `add_text("", 0)` returns `Ok` while that empty piece is still in
the piece list — so "after any add_text call that returns Ok, no piece has
length 0" fails as stated. -/
theorem C7_empty_piece_cex :
    ((PieceTable.new []).add_text [] 0).1 = .ok () ∧
    (((PieceTable.new []).add_text [] 0).2.pieces.any (fun p => p.length == 0)) = true :=
  ⟨rfl, rfl⟩

/-- C7 amended: on every reachable piece table, after a committed `add_text`
with non-empty text and after a committed `delete_text` with start < end, no
piece has length 0 (the no-op successes — empty text, empty range — leave the
piece list unchanged, so only the initial piece of an empty document can remain
empty). -/
theorem C7_no_empty_pieces_amended (pt : PieceTable) (text : List Char) (pos s e : Nat)
    (hr : Reachable pt) :
    (text ≠ [] → (pt.add_text text pos).1 = .ok () →
      ((pt.add_text text pos).2.pieces.all (fun p => p.length != 0)) = true) ∧
    (s < e → (pt.delete_text s e).1 = .ok () →
      ((pt.delete_text s e).2.pieces.all (fun p => p.length != 0)) = true) := by
  constructor
  · intro ht hok
    have hpos : pos ≤ pt.total_length := by
      by_contra hp
      have hp' : pos > pt.total_length := by omega
      simp [PieceTable.add_text, ht, hp'] at hok
    rw [List.all_eq_true]
    intro p hp
    have := add_text_pieces_pos pt text pos (reachable_inv hr) ht hpos p hp
    simpa using Nat.pos_iff_ne_zero.mp this
  · intro hse hok
    have h1 : ¬ s > pt.total_length := by
      intro h1
      simp [PieceTable.delete_text, h1] at hok
    have h2 : ¬ e > pt.total_length := by
      intro h2
      simp [PieceTable.delete_text, h1, h2] at hok
    rw [List.all_eq_true]
    intro p hp
    have := delete_text_pieces_pos pt s e (reachable_inv hr) hse (by omega) p hp
    simpa using Nat.pos_iff_ne_zero.mp this

/-- Witness for the amended C7 at `new("ab")` with `add_text("x", 1)` and
`delete_text(0, 1)`. -/
theorem C7_no_empty_pieces_amended_witness :
    (((PieceTable.new ("ab".toList)).add_text ("x".toList) 1).2.pieces.all
      (fun p => p.length != 0)) = true ∧
    (((PieceTable.new ("ab".toList)).delete_text 0 1).2.pieces.all
      (fun p => p.length != 0)) = true :=
  ⟨(C7_no_empty_pieces_amended (PieceTable.new ("ab".toList)) ("x".toList) 1 0 1
      (Reachable.base ("ab".toList))).1 (by decide) (by rfl),
   (C7_no_empty_pieces_amended (PieceTable.new ("ab".toList)) ("x".toList) 1 0 1
      (Reachable.base ("ab".toList))).2 (by decide) (by rfl)⟩

/-- C8: `add_text(text, position)` returns an error iff `text` is non-empty and
`position > total_length()` (empty text is a no-op success at any position);
`delete_text(start, end)` returns an error iff `start > total_length()` or
`end > total_length()` or `start > end` — in particular the internal
"could not find start piece" failure is unreachable for valid arguments. -/
theorem C8_mutator_error_iff (pt : PieceTable) (text : List Char) (pos s e : Nat) :
    ((pt.add_text text pos).1 ≠ .ok () ↔ text ≠ [] ∧ pos > pt.total_length) ∧
    ((pt.delete_text s e).1 ≠ .ok () ↔
      s > pt.total_length ∨ e > pt.total_length ∨ s > e) := by
  constructor
  · by_cases ht : text = []
    · simp [PieceTable.add_text, ht]
    by_cases hp : pos > pt.total_length
    · simp [PieceTable.add_text, ht, hp]
    · by_cases hsp : pos = 0 ∧ pt.pieces = []
      · simp [PieceTable.add_text, ht, hp, hsp]
      · simp [PieceTable.add_text, ht, hp, hsp]
  · by_cases h1 : s > pt.total_length
    · simp [PieceTable.delete_text, h1]
    by_cases h2 : e > pt.total_length
    · simp [PieceTable.delete_text, h1, h2]
    by_cases h3 : s > e
    · simp [PieceTable.delete_text, h1, h2, h3]
    by_cases h4 : s = e
    · simp [PieceTable.delete_text, h1, h2, h3, h4]
    · have hs : s < (pt.pieces.map Piece.length).sum := by
        have htl : pt.total_length = (pt.pieces.map Piece.length).sum := rfl
        omega
      have hsome := deleteFrom_isSome pt.pieces s e hs
      rcases hdf : deleteFrom pt.pieces s e with _ | t
      · rw [hdf] at hsome; simp at hsome
      · simp [PieceTable.delete_text, h1, h2, h3, h4, hdf]

/-- C10: whenever `add_text` or `delete_text` returns an error, the piece table
is left exactly as it was before the call — every validation failure is
detected before any mutation occurs. -/
theorem C10_error_atomicity (pt : PieceTable) (text : List Char) (pos s e : Nat) :
    ((pt.add_text text pos).1 ≠ .ok () → (pt.add_text text pos).2 = pt) ∧
    ((pt.delete_text s e).1 ≠ .ok () → (pt.delete_text s e).2 = pt) := by
  constructor
  · intro h
    by_cases ht : text = []
    · simp [PieceTable.add_text, ht]
    by_cases hp : pos > pt.total_length
    · simp [PieceTable.add_text, ht, hp]
    · exfalso
      apply h
      by_cases hsp : pos = 0 ∧ pt.pieces = []
      · simp [PieceTable.add_text, ht, hp, hsp]
      · simp [PieceTable.add_text, ht, hp, hsp]
  · intro h
    by_cases h1 : s > pt.total_length
    · simp [PieceTable.delete_text, h1]
    by_cases h2 : e > pt.total_length
    · simp [PieceTable.delete_text, h1, h2]
    by_cases h3 : s > e
    · simp [PieceTable.delete_text, h1, h2, h3]
    by_cases h4 : s = e
    · exfalso
      apply h
      simp [PieceTable.delete_text, h1, h2, h3, h4]
    rcases hdf : deleteFrom pt.pieces s e with _ | t
    · simp [PieceTable.delete_text, h1, h2, h3, h4, hdf]
    · exfalso
      apply h
      simp [PieceTable.delete_text, h1, h2, h3, h4, hdf]

/-- Witness for C10: an out-of-range insert and an inverted-range delete on
`new("ab")` leave the table unchanged. -/
theorem C10_error_atomicity_witness :
    ((PieceTable.new ("ab".toList)).add_text ("x".toList) 5).2
      = PieceTable.new ("ab".toList) ∧
    ((PieceTable.new ("ab".toList)).delete_text 5 1).2
      = PieceTable.new ("ab".toList) :=
  ⟨(C10_error_atomicity (PieceTable.new ("ab".toList)) ("x".toList) 5 5 1).1
      (fun h => Except.noConfusion h),
   (C10_error_atomicity (PieceTable.new ("ab".toList)) ("x".toList) 5 5 1).2
      (fun h => Except.noConfusion h)⟩

/-! Claims about the temporary buffers. -/

/-- C9 counterexample: a non-empty add buffer anchored at position 0 is left
unchanged by `delete_char()` — the length does not decrease, because the guard
tests `position > 0` instead of buffer non-emptiness. -/
theorem C9_delete_char_cex :
    (((TemporaryBufferAddText.new 10 0).add_char 'a').2.buffer ≠ []) ∧
    ((((TemporaryBufferAddText.new 10 0).add_char 'a').2.delete_char).buffer.length
      = (((TemporaryBufferAddText.new 10 0).add_char 'a').2).buffer.length) := by
  constructor
  · decide
  · rfl

/-- C9 amended: for every `TemporaryAddBuffer` whose buffered text is non-empty
AND whose anchor position is positive, `delete_char()` removes exactly the last
buffered character and the length decreases by one; with anchor position 0 the
call is a no-op. -/
theorem C9_delete_char_amended (b : TemporaryBufferAddText)
    (_hb : b.buffer ≠ []) (hp : 0 < b.position) :
    b.delete_char.buffer = b.buffer.dropLast ∧
    b.delete_char.buffer.length = b.buffer.length - 1 := by
  unfold TemporaryBufferAddText.delete_char
  rw [if_pos hp]
  exact ⟨rfl, by simp⟩

/-- Witness for the amended C9 at a buffer anchored at 1 holding one character. -/
theorem C9_delete_char_amended_witness :
    (((TemporaryBufferAddText.new 10 1).add_char 'a').2.delete_char.buffer
      = ((TemporaryBufferAddText.new 10 1).add_char 'a').2.buffer.dropLast) ∧
    (((TemporaryBufferAddText.new 10 1).add_char 'a').2.delete_char.buffer.length
      = ((TemporaryBufferAddText.new 10 1).add_char 'a').2.buffer.length - 1) :=
  C9_delete_char_amended ((TemporaryBufferAddText.new 10 1).add_char 'a').2
    (by decide) (by decide)

/-- Run of a sequence of `add_char` calls on the delete buffer; `none` means
some call panicked. -/
def runDelChars (b : TemporaryBufferDeleteText) :
    List (Nat × KeyCode) → Option TemporaryBufferDeleteText
  | [] => some b
  | (p, k) :: rest =>
    match b.add_char p k with
    | none => none
    | some (_, b') => runDelChars b' rest

/-- Coherence of the recorded deletion range: absent, or `start ≤ end`. -/
def TemporaryBufferDeleteText.coherent (b : TemporaryBufferDeleteText) : Bool :=
  match b.start, b.endPos with
  | none, none => true
  | some s, some e => s ≤ e
  | _, _ => false

/-- Post-state of an `add_char` call on the delete buffer (unchanged when the
call panics). -/
def TemporaryBufferDeleteText.add_charState (b : TemporaryBufferDeleteText)
    (position : Nat) (key : KeyCode) : TemporaryBufferDeleteText :=
  match b.add_char position key with
  | some (_, b') => b'
  | none => b

/-- C4 counterexample: a Backspace at position 1 followed by a Backspace at
position 0 — the second call underflows `start - 1` and panics (in a release
build the range would silently invert instead), refuting "no call panics and
the range never inverts". -/
theorem C4_backspace_underflow_cex :
    runDelChars (TemporaryBufferDeleteText.new 10) [(1, .backspace), (0, .backspace)]
      = none := by
  rfl

/-- C4 amended: an `add_char` call on a delete buffer whose range is absent or
coherent (start ≤ end) does not panic and leaves the range absent or coherent,
provided the call is not a Backspace while the recorded start is 0; that
excluded call underflows usize (panic in debug builds, range inversion in
release builds). -/
theorem C4_range_coherent_amended (b : TemporaryBufferDeleteText) (position : Nat)
    (key : KeyCode) (hc : b.coherent = true)
    (hsafe : ¬ (key = .backspace ∧ b.start = some 0)) :
    (b.add_char position key).isSome = true
      ∧ (b.add_charState position key).coherent = true := by
  obtain ⟨ml, s0, e0⟩ := b
  rcases s0 with _ | s <;> rcases e0 with _ | e <;>
    simp only [TemporaryBufferDeleteText.coherent] at hc
  · -- no range recorded
    cases key with
    | backspace =>
      by_cases hp : position = 0
      · simp [TemporaryBufferDeleteText.add_char,
          TemporaryBufferDeleteText.add_charState, TemporaryBufferDeleteText.coherent, hp]
      · simp [TemporaryBufferDeleteText.add_char,
          TemporaryBufferDeleteText.add_charState, TemporaryBufferDeleteText.coherent, hp]
    | delete =>
      simp [TemporaryBufferDeleteText.add_char,
        TemporaryBufferDeleteText.add_charState, TemporaryBufferDeleteText.coherent]
    | other =>
      simp [TemporaryBufferDeleteText.add_char,
        TemporaryBufferDeleteText.add_charState, TemporaryBufferDeleteText.coherent]
  · simp at hc
  · simp at hc
  · -- range (s, e) with s ≤ e recorded
    have hse : s ≤ e := by simpa using hc
    cases key with
    | backspace =>
      have hs0 : ¬ s = 0 := fun h => hsafe ⟨rfl, by simp [h]⟩
      have h1 : ¬ e + 1 < s := by omega
      have h2 : ¬ e < s - 1 := by omega
      by_cases hm : e - (s - 1) = ml <;>
        simp [TemporaryBufferDeleteText.add_char,
          TemporaryBufferDeleteText.add_charState, TemporaryBufferDeleteText.coherent,
          hs0, h2, hm] <;> omega
    | delete =>
      have h1 : ¬ e + 1 < s := by omega
      by_cases hm : e + 1 - s = ml <;>
        simp [TemporaryBufferDeleteText.add_char,
          TemporaryBufferDeleteText.add_charState, TemporaryBufferDeleteText.coherent,
          h1, hm] <;> omega
    | other =>
      simp [TemporaryBufferDeleteText.add_char,
        TemporaryBufferDeleteText.add_charState, TemporaryBufferDeleteText.coherent, hse]

/-- Witness for the amended C4: a first Backspace at position 3 on an empty
delete buffer succeeds and records the coherent range (2, 3). -/
theorem C4_range_coherent_amended_witness :
    (((TemporaryBufferDeleteText.new 5).add_char 3 .backspace).isSome = true)
      ∧ (((TemporaryBufferDeleteText.new 5).add_charState 3 .backspace).coherent = true) :=
  C4_range_coherent_amended (TemporaryBufferDeleteText.new 5) 3 .backspace
    (by decide) (by decide)

/-- C5 (code bug): with no active range, `delete_word("a bcd", 3, Delete)` sets
the range to (3, 2) — `end` comes from scanning the text BEFORE position 3 for
whitespace (found at index 1, so `end = 2`), not from scanning rightward as the
function's own comment ("Find first space after the position") and the spec
describe; the claimed result would be the range (3, 5). -/
theorem C5_delete_word_scans_prefix :
    (TemporaryBufferDeleteText.new 10).delete_word ("a bcd".toList) 3 .delete
      = (.ok .Added, { max_length := 10, start := some 3, endPos := some 2 }) := by
  rfl

/-! Claim C3: mutual exclusivity of the two pending-edit buffers. -/

/-- Structural invariant of the delete buffer as used by the editor: `start`
and `end` are always set together. -/
def Editor.delBufWF (e : Editor) : Prop :=
  e.temporary_delete_buffer.start.isSome = e.temporary_delete_buffer.endPos.isSome

/-- Mutual-exclusivity property claimed by the spec: the pending add buffer and
the pending delete buffer are never both non-empty. -/
def Editor.buffersExclusive (e : Editor) : Prop :=
  e.temporary_add_buffer.buffer = [] ∨ e.temporary_delete_buffer.is_empty = true

theorem TemporaryBufferDeleteText.is_empty_wf {b : TemporaryBufferDeleteText}
    (h : b.is_empty = true) : b.start.isSome = b.endPos.isSome := by
  unfold TemporaryBufferDeleteText.is_empty at h
  rcases hs : b.start with _ | s <;> rcases he : b.endPos with _ | e <;>
    simp [hs, he] at h ⊢

theorem Editor.pdb_tdb_empty (e : Editor) (h : e.delBufWF) :
    (e.persist_delete_buffer).temporary_delete_buffer.is_empty = true := by
  unfold Editor.delBufWF at h
  unfold Editor.persist_delete_buffer TemporaryBufferDeleteText.get_deletion_range
  rcases hs : e.temporary_delete_buffer.start with _ | s <;>
    rcases he : e.temporary_delete_buffer.endPos with _ | e2 <;>
    simp [hs, he] at h ⊢ <;>
    simp [TemporaryBufferDeleteText.is_empty, TemporaryBufferDeleteText.clear, hs, he]

theorem Editor.pdb_tab (e : Editor) :
    (e.persist_delete_buffer).temporary_add_buffer = e.temporary_add_buffer := by
  unfold Editor.persist_delete_buffer
  rcases h : e.temporary_delete_buffer.get_deletion_range with _ | ⟨s, e2⟩ <;> simp

theorem Editor.pab_tdb (e : Editor) (f : Bool) :
    (e.persist_add_buffer f).temporary_delete_buffer = e.temporary_delete_buffer := by
  unfold Editor.persist_add_buffer
  split <;> [rfl; split <;> rfl]

theorem Editor.pab_tab_empty (e : Editor) :
    (e.persist_add_buffer true).temporary_add_buffer.buffer = [] := by
  unfold Editor.persist_add_buffer
  by_cases h : e.temporary_add_buffer.buffer = []
  · simp [h]
  · simp [h, TemporaryBufferAddText.clear]

theorem Editor.persist_changes_props (e : Editor) (h : e.delBufWF) :
    (e.persist_changes).temporary_add_buffer.buffer = [] ∧
    (e.persist_changes).temporary_delete_buffer.is_empty = true := by
  unfold Editor.persist_changes
  have h1 : (e.persist_add_buffer true).delBufWF := by
    unfold Editor.delBufWF
    rw [Editor.pab_tdb]
    exact h
  exact ⟨by rw [Editor.pdb_tab, Editor.pab_tab_empty],
    Editor.pdb_tdb_empty _ h1⟩

theorem Editor.dmc_props (e : Editor) (h : e.delBufWF) :
    (e.do_after_move_cursor).temporary_add_buffer.buffer = [] ∧
    (e.do_after_move_cursor).temporary_delete_buffer.is_empty = true := by
  unfold Editor.do_after_move_cursor Editor.update_lines_map
  obtain ⟨h1, h2⟩ := Editor.persist_changes_props e h
  simp [TemporaryBufferAddText.update_position, h1, h2]

/-- Post-state of any editor operation other than `delete_char`: the delete
buffer's two fields are still set together. -/
theorem TemporaryBufferDeleteText.delete_word_wf (b : TemporaryBufferDeleteText)
    (text : List Char) (pos : Nat) (key : KeyCode)
    (h : b.start.isSome = b.endPos.isSome) :
    ((b.delete_word text pos key).2).start.isSome
      = ((b.delete_word text pos key).2).endPos.isSome := by
  unfold TemporaryBufferDeleteText.delete_word
  cases key with
  | backspace =>
    simp only []
    by_cases hp : pos = 0
    · simpa [hp] using h
    · rcases hs : b.start with _ | s
      · simp [hp, hs]
      · simpa [hp, hs] using h
  | delete =>
    simp only []
    by_cases hp : pos ≥ text.length
    · simpa [hp] using h
    · rcases he : b.endPos with _ | e2
      · simp [hp, he]
      · simpa [hp, he] using h
  | other => simpa using h

theorem Editor.add_char_tdb (e : Editor) (c : Char) (h : e.delBufWF) :
    (e.add_char c).temporary_delete_buffer.is_empty = true := by
  unfold Editor.add_char
  have h1 : (if ¬ e.temporary_delete_buffer.is_empty then e.persist_delete_buffer
      else e).temporary_delete_buffer.is_empty = true := by
    by_cases hne : e.temporary_delete_buffer.is_empty
    · simp [hne]
    · simp only [hne, not_false_eq_true, if_pos]
      exact Editor.pdb_tdb_empty e h
  dsimp only
  split <;> split <;>
    simp_all [Editor.pab_tdb, Editor.set_right_most_column]
  all_goals (split <;> simp_all)

theorem Editor.pdb_wf (e : Editor) (h : e.delBufWF) : (e.persist_delete_buffer).delBufWF :=
  TemporaryBufferDeleteText.is_empty_wf (Editor.pdb_tdb_empty e h)

theorem Editor.dw_flush_eq (e : Editor) (k : KeyCode)
    (htab : ¬ e.temporary_add_buffer.buffer = []) :
    e.delete_word k = (e.persist_add_buffer true).delete_word k := by
  unfold Editor.delete_word
  simp only [htab, Editor.pab_tab_empty, ne_eq, not_false_eq_true, if_true,
    not_true_eq_false, if_false]

theorem Editor.dw_props_of_empty (e1 : Editor) (k : KeyCode)
    (h1 : e1.temporary_add_buffer.buffer = []) (h2 : e1.delBufWF) :
    (e1.delete_word k).temporary_add_buffer.buffer = [] ∧ (e1.delete_word k).delBufWF := by
  have hwfr := TemporaryBufferDeleteText.delete_word_wf
    e1.temporary_delete_buffer e1.get_text e1.text_position k h2
  unfold Editor.delete_word
  simp only [h1, ne_eq, not_true_eq_false, if_false]
  split
  all_goals constructor
  all_goals first
    | (rw [Editor.pdb_tab]
       (try split) <;> (try split) <;> exact h1)
    | (apply Editor.pdb_wf
       (try split) <;> (try split) <;> exact hwfr)
    | ((try split) <;> (try split) <;> exact h1)
    | ((try split) <;> (try split) <;> exact hwfr)

theorem Editor.delete_word_props (e : Editor) (k : KeyCode) (h : e.delBufWF) :
    (e.delete_word k).temporary_add_buffer.buffer = [] ∧ (e.delete_word k).delBufWF := by
  by_cases htab : e.temporary_add_buffer.buffer = []
  · exact Editor.dw_props_of_empty e k htab h
  · rw [Editor.dw_flush_eq e k htab]
    refine Editor.dw_props_of_empty (e.persist_add_buffer true) k
      (Editor.pab_tab_empty e) ?_
    unfold Editor.delBufWF
    rw [Editor.pab_tdb]
    exact h

theorem Editor.add_new_line_props (e : Editor) (h : e.delBufWF) :
    (e.add_new_line).temporary_add_buffer.buffer = [] ∧ (e.add_new_line).delBufWF := by
  obtain ⟨h1, h2⟩ := Editor.persist_changes_props e h
  unfold Editor.add_new_line Editor.update_lines_map Editor.set_right_most_column
  exact ⟨h1, TemporaryBufferDeleteText.is_empty_wf h2⟩

theorem Editor.hcy_tdb (e : Editor) :
    (e.handle_change_of_cursor_y_position).temporary_delete_buffer
      = e.temporary_delete_buffer := by
  unfold Editor.handle_change_of_cursor_y_position
    Editor.update_text_position_after_cursor_move
  dsimp only
  split <;> rfl

/-- Combined flush invariant after the post-cursor-move bookkeeping. -/
def Editor.buffersOk (e : Editor) : Prop := e.delBufWF ∧ e.buffersExclusive

theorem Editor.move_left_ok (e : Editor) (h : e.buffersOk) :
    (e.move_cursor_left).buffersOk := by
  unfold Editor.move_cursor_left Editor.set_right_most_column
  split
  · have hh := Editor.dmc_props
      ({ e with
          text_position := e.text_position - 1
          cursor := e.cursor.move_left
          right_most_column := (e.cursor.move_left).x }) h.1
    exact ⟨TemporaryBufferDeleteText.is_empty_wf hh.2, Or.inl hh.1⟩
  · exact h

theorem Editor.move_right_ok (e : Editor) (h : e.buffersOk) :
    (e.move_cursor_right).buffersOk := by
  unfold Editor.move_cursor_right Editor.set_right_most_column
  split
  · have hh := Editor.dmc_props
      ({ e with
          text_position := e.text_position + 1
          cursor := e.cursor.move_right
          right_most_column := (e.cursor.move_right).x }) h.1
    exact ⟨TemporaryBufferDeleteText.is_empty_wf hh.2, Or.inl hh.1⟩
  · exact h

theorem Editor.move_up_ok (e : Editor) (h : e.buffersOk) :
    (e.move_cursor_up).buffersOk := by
  unfold Editor.move_cursor_up
  have hwf : (({ e with cursor := e.cursor.move_up }
      : Editor).handle_change_of_cursor_y_position).delBufWF := by
    unfold Editor.delBufWF
    rw [Editor.hcy_tdb]
    exact h.1
  exact ⟨TemporaryBufferDeleteText.is_empty_wf (Editor.dmc_props _ hwf).2,
    Or.inl (Editor.dmc_props _ hwf).1⟩

theorem Editor.move_down_ok (e : Editor) (h : e.buffersOk) :
    (e.move_cursor_down).buffersOk := by
  unfold Editor.move_cursor_down
  have hwf : (({ e with cursor := e.cursor.move_down }
      : Editor).handle_change_of_cursor_y_position).delBufWF := by
    unfold Editor.delBufWF
    rw [Editor.hcy_tdb]
    exact h.1
  exact ⟨TemporaryBufferDeleteText.is_empty_wf (Editor.dmc_props _ hwf).2,
    Or.inl (Editor.dmc_props _ hwf).1⟩

/-- Editor operations named by claim C3 other than `delete_char`. -/
inductive EditorOp where
  | addChar (c : Char)
  | deleteWord (k : KeyCode)
  | addNewLine
  | moveLeft
  | moveRight
  | moveUp
  | moveDown
deriving DecidableEq, Repr

/-- Dispatch of an `EditorOp` to the corresponding `Editor` method. -/
def Editor.applyOp (e : Editor) : EditorOp → Editor
  | .addChar c => e.add_char c
  | .deleteWord k => e.delete_word k
  | .addNewLine => e.add_new_line
  | .moveLeft => e.move_cursor_left
  | .moveRight => e.move_cursor_right
  | .moveUp => e.move_cursor_up
  | .moveDown => e.move_cursor_down

/-- Sequential application of editor operations. -/
def Editor.applyOps (e : Editor) (ops : List EditorOp) : Editor :=
  ops.foldl Editor.applyOp e

theorem Editor.applyOp_ok (e : Editor) (op : EditorOp) (h : e.buffersOk) :
    (e.applyOp op).buffersOk := by
  cases op with
  | addChar c =>
    have ht := Editor.add_char_tdb e c h.1
    exact ⟨TemporaryBufferDeleteText.is_empty_wf ht, Or.inr ht⟩
  | deleteWord k =>
    obtain ⟨h1, h2⟩ := Editor.delete_word_props e k h.1
    exact ⟨h2, Or.inl h1⟩
  | addNewLine =>
    obtain ⟨h1, h2⟩ := Editor.add_new_line_props e h.1
    exact ⟨h2, Or.inl h1⟩
  | moveLeft => exact Editor.move_left_ok e h
  | moveRight => exact Editor.move_right_ok e h
  | moveUp => exact Editor.move_up_ok e h
  | moveDown => exact Editor.move_down_ok e h

theorem Editor.applyOps_ok (e : Editor) (ops : List EditorOp) (h : e.buffersOk) :
    (e.applyOps ops).buffersOk := by
  induction ops generalizing e with
  | nil => exact h
  | cons op rest ih => exact ih (e.applyOp op) (Editor.applyOp_ok e op h)

theorem Editor.new_ok (text : List Char) (max : Nat) : (Editor.new text max).buffersOk :=
  ⟨rfl, Or.inl rfl⟩

/-- C3 counterexample: from `Editor::new("ab", 5)`, typing one character and
then pressing Backspace leaves BOTH temporary buffers non-empty — the cursor
sits just past the pending add-buffer span, `is_cursor_on_buffer` is false
for that position, and `delete_char` routes to the delete buffer without
flushing the add buffer. -/
theorem C3_both_buffers_nonempty_cex :
    ((((Editor.new ("ab".toList) 5).add_char 'x').delete_char
        KeyCode.backspace).temporary_add_buffer.buffer ≠ []) ∧
    ((((Editor.new ("ab".toList) 5).add_char 'x').delete_char
        KeyCode.backspace).temporary_delete_buffer.is_empty = false) := by
  constructor
  · decide
  · rfl

/-- C3 amended: in every Editor state reachable from `Editor::new` by any
sequence of `add_char`, `delete_word`, `add_new_line`, and the four cursor
moves — `delete_char` excluded — the temporary add buffer and the temporary
delete buffer are never both non-empty.  (`delete_char` violates the claimed
invariant, as `C3_both_buffers_nonempty_cex` shows.) -/
theorem C3_mutual_exclusion_amended (text : List Char) (max : Nat) (ops : List EditorOp) :
    ((Editor.new text max).applyOps ops).temporary_add_buffer.buffer = [] ∨
    ((Editor.new text max).applyOps ops).temporary_delete_buffer.is_empty = true :=
  (Editor.applyOps_ok (Editor.new text max) ops (Editor.new_ok text max)).2

end TextEditor
